import Mathlib

/-!
# PaceForge workout generator: formal model and verification

A shallow embedding of `src/generator.ts` of the PaceForge repository.
JavaScript numbers are modelled as rationals (`ℚ`); the cue strings built
by the generator are modelled by the inductive type `Cue`, whose
constructors mirror the distinct string constructions of the source
(template interpolation of distinct data yields distinct strings, so
equality of `Cue` values coincides with equality of the produced strings);
the `throw` in `quantizeDown` is modelled with `Except`.
-/

set_option maxRecDepth 20000

namespace PaceForge

/-- `type Units = 'mph' | 'kph'`. -/
inductive Units where
  | mph
  | kph
deriving DecidableEq, Repr

/-- The single error thrown by the core
(`'Device profile speeds cannot be empty.'`). -/
inductive GenError where
  | emptyDomain
deriving DecidableEq, Repr

/-- Cue labels, one constructor per distinct string construction site in
`generator.ts`.  Each constructor records exactly the data interpolated
into the corresponding template string. -/
inductive Cue where
  /-- `Warm-up @ ${warm} ${profile.units}` -/
  | warmup (speed : ℚ) (units : Units)
  /-- `Cool-down @ ${warm} ${profile.units}` -/
  | cooldown (speed : ℚ) (units : Units)
  /-- `Hard ${i+1}/${repeats} @ ${hard} ${profile.units}` -/
  | hard (i n : ℕ) (speed : ℚ) (units : Units)
  /-- `Easy ${i+1}/${repeats} @ ${easy} ${profile.units}` -/
  | easy (i n : ℕ) (speed : ℚ) (units : Units)
  /-- `Cruise @ ${cruise} ${profile.units}` -/
  | cruise (speed : ℚ) (units : Units)
  /-- `Stride ${i+1}/4 @ ${stride} ${profile.units}` -/
  | stride (i : ℕ) (speed : ℚ) (units : Units)
  /-- `Easy between strides @ ${cruiseSeg.speed} ${profile.units}` -/
  | easyBetween (speed : ℚ) (units : Units)
  /-- `Step ${index+1}/${stepCount} @ ${speed} ${profile.units}` -/
  | step (i n : ℕ) (speed : ℚ) (units : Units)
  /-- `${cue} (clamped)` -/
  | clamped (base : Cue)
  /-- `'(clamped)'` (the segment had no cue) -/
  | clampedBare
  /-- `${previous} | ${next}` from `mergeCue` -/
  | joined (a b : Cue)
deriving DecidableEq, Repr

/-- `type Segment` of `generator.ts`. -/
structure Segment where
  secs : ℚ
  speed : ℚ
  incline : Option ℚ
  cue : Option Cue
deriving DecidableEq, Repr

/-- `type DeviceProfile` of `generator.ts`. -/
structure DeviceProfile where
  name : String
  units : Units
  speeds : List ℚ
  inclines : Option (List ℚ)
  minSegmentSec : Option ℚ
  rampLimitPerChange : Option ℚ
deriving DecidableEq, Repr

/-- `type Workout` of `generator.ts`. -/
structure Workout where
  name : String
  units : Units
  totalSecs : ℚ
  segments : List Segment
deriving DecidableEq, Repr

/-- `type IntervalPlanOpts`: every field optional, defaults applied by
`makeIntervals`. -/
structure IntervalPlanOpts where
  name : Option String := none
  warmupMins : Option ℚ := none
  cooldownMins : Option ℚ := none
  repeats : Option ℕ := none
  hardSecs : Option ℚ := none
  easySecs : Option ℚ := none
  hardIntensity : Option ℚ := none
  easyIntensity : Option ℚ := none
deriving DecidableEq, Repr

/-- `type SteadyOpts`. -/
structure SteadyOpts where
  name : Option String := none
  totalMins : Option ℚ := none
  intensity : Option ℚ := none
  addStrides : Option Bool := none
deriving DecidableEq, Repr

/-- `type ProgressionOpts`. -/
structure ProgressionOpts where
  name : Option String := none
  totalMins : Option ℚ := none
  steps : Option ℕ := none
  topIntensity : Option ℚ := none
deriving DecidableEq, Repr

/-- `Math.round` on JS numbers: round half toward positive infinity. -/
def jsRoundInt (q : ℚ) : ℤ := Rat.floor (q + 1/2)

/-- `Math.round` as a number-to-number map (the result is an integer). -/
def jsRound (q : ℚ) : ℚ := (jsRoundInt q : ℤ)

/-- `Math.floor` as a number-to-number map. -/
def jsFloor (q : ℚ) : ℚ := (Rat.floor q : ℤ)

/-- `function clamp(n, lo, hi) { return Math.max(lo, Math.min(hi, n)); }` -/
def clamp (n lo hi : ℚ) : ℚ := max lo (min hi n)

/-- `[...speeds].sort((a, b) => a - b)`: ascending stable sort (on `ℚ` any
correct ascending sort returns the same list). -/
def sortSpeeds (speeds : List ℚ) : List ℚ := List.insertionSort (· ≤ ·) speeds

/-- The scan loop of `quantizeDown`: `candidate` starts at `allowed[0]`,
walks the list taking each value `<= target`, stops at the first value
above target. -/
def qdGo (target : ℚ) (candidate : ℚ) : List ℚ → ℚ
  | [] => candidate
  | value :: rest => if value ≤ target then qdGo target value rest else candidate

/-- `export function quantizeDown(allowed, target)`: throws when `allowed`
is empty, else scans for the last leading value not exceeding `target`. -/
def quantizeDown (allowed : List ℚ) (target : ℚ) : Except GenError ℚ :=
  match allowed with
  | [] => .error .emptyDomain
  | a :: rest => .ok (qdGo target a (a :: rest))

/-- `function mergeCue(previous?, next?)`. -/
def mergeCue (previous next : Option Cue) : Option Cue :=
  match previous, next with
  | some p, some n => if p = n then some p else some (.joined p n)
  | some p, none => some p
  | none, n => n

/-- Appending the `(clamped)` marker to an optional cue:
`cue ? cue + ' (clamped)' : '(clamped)'`. -/
def clampCue : Option Cue → Option Cue
  | some c => some (.clamped c)
  | none => some .clampedBare

/-- The inner best-candidate search of `applySafety`: start from the first
candidate, keep the first strictly closer one to `baseSpeed`. -/
def pickBest (baseSpeed : ℚ) (best : ℚ) : List ℚ → ℚ
  | [] => best
  | candidate :: rest =>
      if |candidate - baseSpeed| < |best - baseSpeed| then
        pickBest baseSpeed candidate rest
      else
        pickBest baseSpeed best rest

/-- The ramp-limiting body of `applySafety` for one segment, given a
previous emitted speed `prevSpeed`, the quantized `baseSpeed` and the
segment's cue.  Returns the emitted speed and possibly-annotated cue. -/
def rampApply (allowed : List ℚ) (rampLimit prevSpeed baseSpeed : ℚ)
    (cue : Option Cue) : ℚ × Option Cue :=
  if rampLimit < |baseSpeed - prevSpeed| then
    match allowed.filter (fun value => decide (|value - prevSpeed| ≤ rampLimit)) with
    | [] =>
        if prevSpeed = baseSpeed then (baseSpeed, cue)
        else (prevSpeed, clampCue cue)
    | c :: cs =>
        let best := pickBest baseSpeed c cs
        if best = baseSpeed then (baseSpeed, cue) else (best, clampCue cue)
  else (baseSpeed, cue)

/-- The guard `if (constrained.length && rampLimit !== undefined)` around
the ramp-limiting body: no previous segment or no ramp limit means the
quantized speed and cue pass through unchanged. -/
def stepSpeedCue (allowed : List ℚ) (ramp : Option ℚ) (prev : Option ℚ)
    (baseSpeed : ℚ) (cue : Option Cue) : ℚ × Option Cue :=
  match prev, ramp with
  | some prevSpeed, some rampLimit => rampApply allowed rampLimit prevSpeed baseSpeed cue
  | _, _ => (baseSpeed, cue)

/-- The first (quantize + ramp-limit) loop of `applySafety`.  `prev` is
the speed of the last segment appended to `constrained` (`none` when the
accumulator is still empty, mirroring `constrained.length`). -/
def constrain (allowed : List ℚ) (ramp : Option ℚ) :
    Option ℚ → List Segment → Except GenError (List Segment)
  | _, [] => .ok []
  | prev, segment :: rest => do
      let baseSpeed ← quantizeDown allowed segment.speed
      let sc := stepSpeedCue allowed ramp prev baseSpeed segment.cue
      let tail ← constrain allowed ramp (some sc.1) rest
      pure ({ segment with speed := sc.1, cue := sc.2 } :: tail)

/-- The single-pass merge loop of `applySafety`, written with the last
accumulated segment `cur` held out (it is the only mutable entry). -/
def mergeGo (minSegmentSec : ℚ) (cur : Segment) : List Segment → List Segment
  | [] => [cur]
  | segment :: rest =>
      if cur.speed = segment.speed ∧ (cur.secs < minSegmentSec ∨ segment.secs < minSegmentSec) then
        mergeGo minSegmentSec
          { cur with secs := cur.secs + segment.secs, cue := mergeCue cur.cue segment.cue } rest
      else
        cur :: mergeGo minSegmentSec segment rest

/-- The merge stage: a pass-through when `minSegmentSec` is undefined. -/
def mergePass (minSegmentSec : Option ℚ) (constrained : List Segment) : List Segment :=
  match minSegmentSec with
  | none => constrained
  | some m =>
      match constrained with
      | [] => []
      | segment :: rest => mergeGo m segment rest

/-- `function applySafety(profile, rawSegments)`. -/
def applySafety (profile : DeviceProfile) (rawSegments : List Segment) :
    Except GenError (List Segment) := do
  let allowed := sortSpeeds profile.speeds
  let constrained ← constrain allowed profile.rampLimitPerChange none rawSegments
  pure (mergePass profile.minSegmentSec constrained)

/-- `function finalizeWorkout(profile, name, segments)`. -/
def finalizeWorkout (profile : DeviceProfile) (name : Option String)
    (segments : List Segment) : Except GenError Workout := do
  let resolvedName := name.getD profile.name
  let constrained ← applySafety profile segments
  pure { name := resolvedName, units := profile.units,
         totalSecs := constrained.foldl (fun sum segment => sum + segment.secs) 0,
         segments := constrained }

/-- `export function makeIntervals(profile, opts = {})`. -/
def makeIntervals (profile : DeviceProfile) (opts : IntervalPlanOpts) :
    Except GenError Workout :=
  let speeds := sortSpeeds profile.speeds
  let maxS := speeds.getLast?.getD 0
  let minS := speeds.head?.getD 0
  let name := opts.name.getD "Intervals"
  let warmupMins := opts.warmupMins.getD 5
  let cooldownMins := opts.cooldownMins.getD 5
  let repeats := opts.repeats.getD 6
  let hardSecs := opts.hardSecs.getD 90
  let easySecs := opts.easySecs.getD 90
  let hardIntensity := opts.hardIntensity.getD (17/20)
  let easyIntensity := opts.easyIntensity.getD (11/20)
  do
  let warm ← quantizeDown speeds (clamp (minS + (maxS - minS) * (7/20)) minS maxS)
  let hard ← quantizeDown speeds (clamp (maxS * hardIntensity) minS maxS)
  let easy ← quantizeDown speeds (clamp (maxS * easyIntensity) minS maxS)
  let warmupSegs : List Segment :=
    if 0 < warmupMins then
      [{ secs := jsRound (warmupMins * 60), speed := warm, incline := none,
         cue := some (.warmup warm profile.units) }]
    else []
  let reps : List Segment := (List.range repeats).flatMap fun i =>
    [ { secs := hardSecs, speed := hard, incline := none,
        cue := some (.hard (i + 1) repeats hard profile.units) },
      { secs := easySecs, speed := easy, incline := none,
        cue := some (.easy (i + 1) repeats easy profile.units) } ]
  let cooldownSegs : List Segment :=
    if 0 < cooldownMins then
      [{ secs := jsRound (cooldownMins * 60), speed := warm, incline := none,
         cue := some (.cooldown warm profile.units) }]
    else []
  finalizeWorkout profile (some name) (warmupSegs ++ reps ++ cooldownSegs)

/-- `export function makeSteady(profile, opts = {})`. -/
def makeSteady (profile : DeviceProfile) (opts : SteadyOpts) :
    Except GenError Workout :=
  let speeds := sortSpeeds profile.speeds
  let maxS := speeds.getLast?.getD 0
  let minS := speeds.head?.getD 0
  let name := opts.name.getD "Steady"
  let totalMins := opts.totalMins.getD 30
  let intensity := opts.intensity.getD (13/20)
  let addStrides := opts.addStrides.getD true
  do
  let warm ← quantizeDown speeds (clamp (minS + (maxS - minS) * (7/20)) minS maxS)
  let cruise ← quantizeDown speeds (clamp (maxS * intensity) minS maxS)
  let totalSecs := max 0 (jsRound (totalMins * 60))
  let warmSecs := min (totalSecs / 2) (5 * 60)
  let coolSecs := warmSecs
  let cruiseSecs := max 0 (totalSecs - warmSecs - coolSecs)
  let warmSeg : Segment :=
    { secs := jsRound warmSecs, speed := warm, incline := none,
      cue := some (.warmup warm profile.units) }
  let cruiseSeg : Segment :=
    { secs := jsRound cruiseSecs, speed := cruise, incline := none,
      cue := some (.cruise cruise profile.units) }
  let coolSeg : Segment :=
    { secs := jsRound coolSecs, speed := warm, incline := none,
      cue := some (.cooldown warm profile.units) }
  if addStrides = true ∧ 4 * (20 + 40) ≤ cruiseSecs ∧ 3 ≤ speeds.length then do
    let stride ← quantizeDown speeds (clamp (maxS * (9/10)) minS maxS)
    let baseCue := cruiseSeg.cue
    let preCruise := max 0 (cruiseSeg.secs - (4 * 20 + 4 * 40))
    let strideBlock : List Segment := (List.range 4).flatMap fun i =>
      [ { secs := 20, speed := stride, incline := none,
          cue := some (.stride (i + 1) stride profile.units) },
        { secs := 40, speed := cruiseSeg.speed, incline := none,
          cue := some (.easyBetween cruiseSeg.speed profile.units) } ]
    let rebuilt : List Segment :=
      [warmSeg] ++
        (if 0 < preCruise then
          [{ secs := preCruise, speed := cruiseSeg.speed, incline := none, cue := baseCue }]
        else []) ++
        strideBlock ++ [coolSeg]
    finalizeWorkout profile (some name) rebuilt
  else
    finalizeWorkout profile (some name) [warmSeg, cruiseSeg, coolSeg]

/-- The ladder construction loop of `makeProgression`. -/
def progressionLadder (stepCount : ℕ) (usableSpeeds : List ℚ) (warm : ℚ) : List ℚ :=
  (List.range stepCount).map fun (i : ℕ) =>
    if usableSpeeds.length = 0 then warm
    else
      let idx : ℕ :=
        if stepCount = 1 then usableSpeeds.length - 1
        else (jsRoundInt ((i : ℚ) / ((stepCount : ℚ) - 1) * ((usableSpeeds.length : ℚ) - 1))).toNat
      usableSpeeds.getD idx 0

/-- The `ladder.forEach` loop of `makeProgression` distributing the
remainder seconds one at a time. -/
def progSteps (units : Units) (stepCount : ℕ) (baseStepSecs : ℚ) :
    List ℚ → ℚ → ℕ → List Segment
  | [], _, _ => []
  | speed :: rest, remainder, index =>
      let secs := if 0 < remainder then baseStepSecs + 1 else baseStepSecs
      let remainder' := if 0 < remainder then remainder - 1 else remainder
      { secs := secs, speed := speed, incline := none,
        cue := some (.step (index + 1) stepCount speed units) } ::
        progSteps units stepCount baseStepSecs rest remainder' (index + 1)

/-- `export function makeProgression(profile, opts = {})`. -/
def makeProgression (profile : DeviceProfile) (opts : ProgressionOpts) :
    Except GenError Workout :=
  let speeds := sortSpeeds profile.speeds
  let maxS := speeds.getLast?.getD 0
  let minS := speeds.head?.getD 0
  let name := opts.name.getD "Progression"
  let totalMins := opts.totalMins.getD 30
  let steps := opts.steps.getD 4
  let topIntensity := opts.topIntensity.getD (4/5)
  do
  let warm ← quantizeDown speeds (clamp (minS + (maxS - minS) * (7/20)) minS maxS)
  let top ← quantizeDown speeds (clamp (maxS * topIntensity) warm maxS)
  let stepCount := max 1 steps
  let usableSpeeds := speeds.filter fun speed => decide (warm ≤ speed) && decide (speed ≤ top)
  let ladder := progressionLadder stepCount usableSpeeds warm
  let totalSecs := max 0 (jsRound (totalMins * 60))
  let warmSecs := min (totalSecs / 2) (5 * 60)
  let coolSecs := warmSecs
  let workSecs := max 0 (totalSecs - warmSecs - coolSecs)
  let baseStepSecs := if stepCount = 0 then 0 else jsFloor (workSecs / (stepCount : ℚ))
  let remainder := workSecs - baseStepSecs * (stepCount : ℚ)
  let warmSeg : Segment :=
    { secs := jsRound warmSecs, speed := warm, incline := none,
      cue := some (.warmup warm profile.units) }
  let coolSeg : Segment :=
    { secs := jsRound coolSecs, speed := warm, incline := none,
      cue := some (.cooldown warm profile.units) }
  finalizeWorkout profile (some name)
    ([warmSeg] ++ progSteps profile.units stepCount baseStepSecs ladder remainder 0 ++ [coolSeg])

/-- A segment carrying a `Stride i/4` cue. -/
def isStrideSeg (s : Segment) : Bool :=
  match s.cue with
  | some (Cue.stride _ _ _) => true
  | _ => false

/-- A segment carrying a `Cruise` cue. -/
def isCruiseSeg (s : Segment) : Bool :=
  match s.cue with
  | some (Cue.cruise _ _) => true
  | _ => false

/-- A segment carrying an `Easy between strides` cue. -/
def isEasyBetweenSeg (s : Segment) : Bool :=
  match s.cue with
  | some (Cue.easyBetween _ _) => true
  | _ => false

/-- The raw segment list `makeSteady` builds in the stride branch for
`totalMins = 30` (300 s warm-up, 960 s cruise, four 20 s strides separated
by 40 s recoveries, 300 s cool-down). -/
def steadyRebuilt (units : Units) (warm cruise stride : ℚ) : List Segment :=
  [ { secs := 300, speed := warm, incline := none, cue := some (.warmup warm units) },
    { secs := 960, speed := cruise, incline := none, cue := some (.cruise cruise units) },
    { secs := 20, speed := stride, incline := none, cue := some (.stride 1 stride units) },
    { secs := 40, speed := cruise, incline := none, cue := some (.easyBetween cruise units) },
    { secs := 20, speed := stride, incline := none, cue := some (.stride 2 stride units) },
    { secs := 40, speed := cruise, incline := none, cue := some (.easyBetween cruise units) },
    { secs := 20, speed := stride, incline := none, cue := some (.stride 3 stride units) },
    { secs := 40, speed := cruise, incline := none, cue := some (.easyBetween cruise units) },
    { secs := 20, speed := stride, incline := none, cue := some (.stride 4 stride units) },
    { secs := 40, speed := cruise, incline := none, cue := some (.easyBetween cruise units) },
    { secs := 300, speed := warm, incline := none, cue := some (.cooldown warm units) } ]

/-! ## Basic lemmas about the quantizer -/

theorem quantizeDown_cons (a : ℚ) (l : List ℚ) (t : ℚ) :
    quantizeDown (a :: l) t = .ok (qdGo t a (a :: l)) := rfl

theorem qdGo_eq_or_mem (t c : ℚ) (l : List ℚ) : qdGo t c l = c ∨ qdGo t c l ∈ l := by
  induction l generalizing c with
  | nil => exact Or.inl rfl
  | cons v rest ih =>
      simp only [qdGo]
      split
      · rcases ih v with h | h
        · exact Or.inr (by simp [h])
        · exact Or.inr (List.mem_cons_of_mem _ h)
      · exact Or.inl rfl

theorem qdGo_mem (t a : ℚ) (l : List ℚ) : qdGo t a l ∈ a :: l := by
  rcases qdGo_eq_or_mem t a l with h | h
  · simp [h]
  · exact List.mem_cons_of_mem _ h

theorem qdGo_le {t c : ℚ} {l : List ℚ} (h : c ≤ t) : qdGo t c l ≤ t := by
  induction l generalizing c with
  | nil => exact h
  | cons v rest ih =>
      simp only [qdGo]
      split
      · exact ih (by assumption)
      · exact h

theorem qdGo_ge {t c : ℚ} {l : List ℚ} (hs : ∀ v ∈ l, c ≤ v) : c ≤ qdGo t c l := by
  rcases qdGo_eq_or_mem t c l with h | h
  · rw [h]
  · exact hs _ h

theorem qdGo_greatest {t c : ℚ} {l : List ℚ} (hs : List.Sorted (· ≤ ·) (c :: l)) :
    ∀ v ∈ c :: l, v ≤ t → v ≤ qdGo t c l := by
  induction l generalizing c with
  | nil =>
      intro v hv _
      rcases List.mem_singleton.mp hv with rfl
      exact le_refl _
  | cons u rest ih =>
      obtain ⟨hcu, hs'⟩ := List.sorted_cons.mp hs
      intro v hv hvt
      simp only [qdGo]
      split
      · have hmem : v = c ∨ v ∈ u :: rest := List.mem_cons.mp hv
        have hge : u ≤ qdGo t u rest :=
          qdGo_ge (fun w hw => List.rel_of_sorted_cons hs' w hw)
        rcases hmem with rfl | hv'
        · exact (hcu u (by simp)).trans hge
        · exact ih hs' v hv' hvt
      · rename_i hut
        rcases List.mem_cons.mp hv with rfl | hv'
        · exact le_refl _
        · rcases List.mem_cons.mp hv' with rfl | hv''
          · exact absurd hvt hut
          · exact absurd ((List.rel_of_sorted_cons hs' v hv'').trans hvt) hut

theorem qdGo_mono {c : ℚ} {l : List ℚ} (hs : List.Sorted (· ≤ ·) (c :: l))
    {t1 t2 : ℚ} (h : t1 ≤ t2) : qdGo t1 c l ≤ qdGo t2 c l := by
  induction l generalizing c with
  | nil => exact le_refl _
  | cons u rest ih =>
      obtain ⟨hcu, hs'⟩ := List.sorted_cons.mp hs
      simp only [qdGo]
      by_cases h1 : u ≤ t1
      · rw [if_pos h1, if_pos (h1.trans h)]
        exact ih hs'
      · rw [if_neg h1]
        by_cases h2 : u ≤ t2
        · rw [if_pos h2]
          exact (hcu u (by simp)).trans
            (qdGo_ge fun w hw => List.rel_of_sorted_cons hs' w hw)
        · rw [if_neg h2]

/-- A sorted list stays sorted when its head is duplicated. -/
theorem sorted_cons_self {a : ℚ} {l : List ℚ} (hs : List.Sorted (· ≤ ·) (a :: l)) :
    List.Sorted (· ≤ ·) (a :: a :: l) := by
  refine List.sorted_cons.mpr ⟨?_, hs⟩
  intro b hb
  rcases List.mem_cons.mp hb with rfl | hb'
  · exact le_refl _
  · exact List.rel_of_sorted_cons hs b hb'

/-- The quantizer scan over the full list returns a member of the list. -/
theorem qdGo_full_mem (t a : ℚ) (l : List ℚ) : qdGo t a (a :: l) ∈ a :: l := by
  rcases qdGo_eq_or_mem t a (a :: l) with h | h
  · rw [h]; exact List.mem_cons_self _ _
  · exact h

theorem qdGo_idem {a : ℚ} {l : List ℚ} (hs : List.Sorted (· ≤ ·) (a :: l)) :
    ∀ v ∈ a :: l, qdGo v a (a :: l) = v := by
  intro v hv
  have ha : a ≤ v := by
    rcases List.mem_cons.mp hv with rfl | hv'
    · exact le_refl _
    · exact List.rel_of_sorted_cons hs v hv'
  have h1 : qdGo v a (a :: l) ≤ v := qdGo_le ha
  have h2 : v ≤ qdGo v a (a :: l) :=
    qdGo_greatest (sorted_cons_self hs) v (List.mem_cons_of_mem _ hv) (le_refl v)
  exact le_antisymm h1 h2

/-! ## Sorting lemmas -/

theorem sortSpeeds_sorted (l : List ℚ) : List.Sorted (· ≤ ·) (sortSpeeds l) :=
  List.sorted_insertionSort _ l

theorem sortSpeeds_perm (l : List ℚ) : (sortSpeeds l).Perm l :=
  List.perm_insertionSort _ l

theorem mem_sortSpeeds {a : ℚ} {l : List ℚ} : a ∈ sortSpeeds l ↔ a ∈ l :=
  (sortSpeeds_perm l).mem_iff

theorem length_sortSpeeds (l : List ℚ) : (sortSpeeds l).length = l.length :=
  (sortSpeeds_perm l).length_eq

theorem sortSpeeds_ne_nil {l : List ℚ} (h : l ≠ []) : sortSpeeds l ≠ [] := by
  intro hc
  exact h (List.length_eq_zero.mp (by rw [← length_sortSpeeds l, hc]; rfl))

/-! ## Claim C3 -/

/-- **C3.** For every non-empty list `allowed = a :: l` sorted ascending and
every target: `quantizeDown` succeeds with a value `q ∈ allowed`;
when `min(allowed) = a ≤ target`, `q` is the largest member of `allowed`
that is `≤ target`; otherwise (`target < a`) `q = a = min(allowed)`. -/
theorem quantizeDown_floor_spec (a : ℚ) (l : List ℚ) (target : ℚ)
    (hs : List.Sorted (· ≤ ·) (a :: l)) :
    ∃ q, quantizeDown (a :: l) target = .ok q ∧ q ∈ a :: l ∧
      (a ≤ target → q ≤ target ∧ ∀ v ∈ a :: l, v ≤ target → v ≤ q) ∧
      (target < a → q = a) := by
  refine ⟨qdGo target a (a :: l), rfl, qdGo_full_mem target a l, ?_, ?_⟩
  · intro h
    exact ⟨qdGo_le h, fun v hv hvt =>
      qdGo_greatest (sorted_cons_self hs) v (List.mem_cons_of_mem _ hv) hvt⟩
  · intro h
    simp [qdGo, not_le.mpr h]

/-- Witness for C3 at `allowed = [1, 2, 4]`, `target = 3`. -/
theorem quantizeDown_floor_spec_witness :
    List.Sorted (· ≤ ·) [(1 : ℚ), 2, 4] ∧
      ∃ q, quantizeDown [(1 : ℚ), 2, 4] 3 = .ok q ∧ q ∈ [(1 : ℚ), 2, 4] ∧
        ((1 : ℚ) ≤ 3 → q ≤ 3 ∧ ∀ v ∈ [(1 : ℚ), 2, 4], v ≤ 3 → v ≤ q) ∧
        ((3 : ℚ) < 1 → q = 1) :=
  ⟨by decide, quantizeDown_floor_spec 1 [2, 4] 3 (by decide)⟩

/-! ## Claim C9 -/

/-- **C9.** For every non-empty ascending `allowed = a :: l`:
quantizing an already-allowed value returns it unchanged (idempotence),
and quantizing a larger target never returns a smaller result
(monotonicity). -/
theorem quantizeDown_idem_mono (a : ℚ) (l : List ℚ)
    (hs : List.Sorted (· ≤ ·) (a :: l)) :
    (∀ v ∈ a :: l, quantizeDown (a :: l) v = .ok v) ∧
      (∀ t1 t2 q1 q2, t1 ≤ t2 → quantizeDown (a :: l) t1 = .ok q1 →
        quantizeDown (a :: l) t2 = .ok q2 → q1 ≤ q2) := by
  constructor
  · intro v hv
    rw [quantizeDown_cons, qdGo_idem hs v hv]
  · intro t1 t2 q1 q2 h h1 h2
    rw [quantizeDown_cons, Except.ok.injEq] at h1 h2
    rw [← h1, ← h2]
    exact qdGo_mono (sorted_cons_self hs) h

/-- Witness for C9 at `allowed = [1, 2, 4]`. -/
theorem quantizeDown_idem_mono_witness :
    List.Sorted (· ≤ ·) [(1 : ℚ), 2, 4] ∧
      ((∀ v ∈ [(1 : ℚ), 2, 4], quantizeDown [(1 : ℚ), 2, 4] v = .ok v) ∧
        (∀ t1 t2 q1 q2, t1 ≤ t2 → quantizeDown [(1 : ℚ), 2, 4] t1 = .ok q1 →
          quantizeDown [(1 : ℚ), 2, 4] t2 = .ok q2 → q1 ≤ q2)) :=
  ⟨by decide, quantizeDown_idem_mono 1 [2, 4] (by decide)⟩

/-! ## Except plumbing -/

theorem except_ok_bind {ε α β : Type} (x : α) (f : α → Except ε β) :
    (Except.ok x >>= f : Except ε β) = f x := rfl

theorem except_bind_ok_iff {ε α β : Type} {e : Except ε α} {f : α → Except ε β} {b : β} :
    (e >>= f) = .ok b ↔ ∃ a, e = .ok a ∧ f a = .ok b := by
  cases e with
  | error err => simp [Bind.bind, Except.bind]
  | ok a => simp [Bind.bind, Except.bind]

theorem except_pure_eq_ok {ε α : Type} (x : α) : (pure x : Except ε α) = .ok x := rfl

/-! ## Ramp-limit step lemmas -/

theorem pickBest_mem (baseSpeed best : ℚ) (l : List ℚ) :
    pickBest baseSpeed best l ∈ best :: l := by
  induction l generalizing best with
  | nil => exact List.mem_singleton.mpr rfl
  | cons c rest ih =>
      simp only [pickBest]
      split
      · rcases List.mem_cons.mp (ih c) with h | h
        · rw [h]; simp
        · exact List.mem_cons_of_mem _ (List.mem_cons_of_mem _ h)
      · rcases List.mem_cons.mp (ih best) with h | h
        · rw [h]; exact List.mem_cons_self _ _
        · exact List.mem_cons_of_mem _ (List.mem_cons_of_mem _ h)

/-- Whatever the ramp limiter emits is the quantized base speed, the
previous speed, or an element of the candidate list. -/
theorem rampApply_speed_mem {allowed : List ℚ} {rampLimit prevSpeed baseSpeed : ℚ}
    {cue : Option Cue} (hp : prevSpeed ∈ allowed) (hb : baseSpeed ∈ allowed) :
    (rampApply allowed rampLimit prevSpeed baseSpeed cue).1 ∈ allowed := by
  unfold rampApply
  split
  · split
    · split
      · exact hb
      · exact hp
    · rename_i c cs heq
      simp only []
      split
      · exact hb
      · have : pickBest baseSpeed c cs ∈ c :: cs := pickBest_mem baseSpeed c cs
        rw [← heq] at this
        exact (List.mem_filter.mp this).1
  · exact hb

/-- Every adjacent step of the ramp limiter either stays within the ramp
limit of the previous emitted speed or re-emits it unchanged. -/
theorem rampApply_rel {allowed : List ℚ} {rampLimit prevSpeed baseSpeed : ℚ}
    {cue : Option Cue} :
    |(rampApply allowed rampLimit prevSpeed baseSpeed cue).1 - prevSpeed| ≤ rampLimit ∨
      (rampApply allowed rampLimit prevSpeed baseSpeed cue).1 = prevSpeed := by
  unfold rampApply
  split
  · split
    · split
      · rename_i hpb
        right; exact hpb.symm
      · right; rfl
    · rename_i c cs heq
      simp only []
      have hbest : pickBest baseSpeed c cs ∈ c :: cs := pickBest_mem baseSpeed c cs
      rw [← heq] at hbest
      have := (List.mem_filter.mp hbest).2
      have hle : |pickBest baseSpeed c cs - prevSpeed| ≤ rampLimit := by
        simpa using this
      split
      · rename_i hb
        left; rw [← hb]; exact hle
      · left; exact hle
  · rename_i h
    left; exact le_of_not_lt h

/-- When the previous emitted speed is itself allowed and the ramp limit
is non-negative, the candidate set is never empty and the emitted speed is
always within the limit (the stall branch is unreachable). -/
theorem rampApply_rel_of_nonneg {allowed : List ℚ} {rampLimit prevSpeed baseSpeed : ℚ}
    {cue : Option Cue} (h0 : 0 ≤ rampLimit) (hp : prevSpeed ∈ allowed) :
    |(rampApply allowed rampLimit prevSpeed baseSpeed cue).1 - prevSpeed| ≤ rampLimit := by
  have hpf : prevSpeed ∈ allowed.filter (fun value => decide (|value - prevSpeed| ≤ rampLimit)) := by
    rw [List.mem_filter]
    exact ⟨hp, by simpa using h0⟩
  unfold rampApply
  split
  · split
    · rename_i heq
      rw [heq] at hpf
      exact absurd hpf (List.not_mem_nil _)
    · rename_i c cs heq
      simp only []
      have hbest : pickBest baseSpeed c cs ∈ c :: cs := pickBest_mem baseSpeed c cs
      rw [← heq] at hbest
      have hle : |pickBest baseSpeed c cs - prevSpeed| ≤ rampLimit := by
        simpa using (List.mem_filter.mp hbest).2
      split
      · rename_i hb
        rw [← hb]; exact hle
      · exact hle
  · rename_i h
    exact le_of_not_lt h

theorem stepSpeedCue_mem {allowed : List ℚ} {ramp prev : Option ℚ}
    {baseSpeed : ℚ} {cue : Option Cue}
    (hb : baseSpeed ∈ allowed) (hprev : ∀ p, prev = some p → p ∈ allowed) :
    (stepSpeedCue allowed ramp prev baseSpeed cue).1 ∈ allowed := by
  unfold stepSpeedCue
  split
  · rename_i prevSpeed rampLimit
    exact rampApply_speed_mem (hprev prevSpeed rfl) hb
  · exact hb

/-! ## Constrain-loop lemmas -/

theorem constrain_nil (allowed : List ℚ) (ramp : Option ℚ) (prev : Option ℚ) :
    constrain allowed ramp prev [] = .ok [] := rfl

theorem constrain_cons (a : ℚ) (l : List ℚ) (ramp : Option ℚ) (prev : Option ℚ)
    (seg : Segment) (rest : List Segment) :
    constrain (a :: l) ramp prev (seg :: rest) =
      (constrain (a :: l) ramp
          (some (stepSpeedCue (a :: l) ramp prev (qdGo seg.speed a (a :: l)) seg.cue).1) rest) >>=
        fun tail =>
          pure ({ seg with
                  speed := (stepSpeedCue (a :: l) ramp prev (qdGo seg.speed a (a :: l)) seg.cue).1,
                  cue := (stepSpeedCue (a :: l) ramp prev (qdGo seg.speed a (a :: l)) seg.cue).2 } ::
                tail) := rfl

/-- `constrain` never fails on a non-empty allowed list. -/
theorem constrain_ok (a : ℚ) (l : List ℚ) (ramp : Option ℚ) :
    ∀ (raw : List Segment) (prev : Option ℚ),
      ∃ out, constrain (a :: l) ramp prev raw = .ok out := by
  intro raw
  induction raw with
  | nil => exact fun prev => ⟨[], rfl⟩
  | cons seg rest ih =>
      intro prev
      obtain ⟨tail, htail⟩ :=
        ih (some (stepSpeedCue (a :: l) ramp prev (qdGo seg.speed a (a :: l)) seg.cue).1)
      exact ⟨_, by rw [constrain_cons, htail]; rfl⟩

/-- Every speed emitted by the constrain loop is an allowed speed. -/
theorem constrain_mem (a : ℚ) (l : List ℚ) (ramp : Option ℚ) :
    ∀ (raw : List Segment) (prev : Option ℚ) (out : List Segment),
      (∀ p, prev = some p → p ∈ a :: l) →
      constrain (a :: l) ramp prev raw = .ok out →
      ∀ s ∈ out, s.speed ∈ a :: l := by
  intro raw
  induction raw with
  | nil =>
      intro prev out _ hok s hs
      rw [constrain_nil, Except.ok.injEq] at hok
      rw [← hok] at hs
      exact absurd hs (List.not_mem_nil s)
  | cons seg rest ih =>
      intro prev out hprev hok
      rw [constrain_cons] at hok
      rcases except_bind_ok_iff.mp hok with ⟨tail, htail, hpure⟩
      rw [except_pure_eq_ok, Except.ok.injEq] at hpure
      have hsc : (stepSpeedCue (a :: l) ramp prev (qdGo seg.speed a (a :: l)) seg.cue).1 ∈ a :: l :=
        stepSpeedCue_mem (qdGo_full_mem seg.speed a l) hprev
      intro s hs
      rw [← hpure] at hs
      rcases List.mem_cons.mp hs with rfl | hs'
      · simpa using hsc
      · exact ih _ _ (fun p hp => by rw [Option.some.injEq] at hp; rw [← hp]; exact hsc)
          htail s hs'

/-- **Ramp chain, general form.**  With a defined ramp limit `r`, every
adjacent pair of the constrained list satisfies
`|speed[i] - speed[i-1]| ≤ r` or re-emits the previous speed. -/
theorem constrain_chain (a : ℚ) (l : List ℚ) (r : ℚ) :
    ∀ (raw : List Segment) (prev : Option ℚ) (out : List Segment),
      constrain (a :: l) (some r) prev raw = .ok out →
      (∀ p, prev = some p → ∀ h ∈ out.head?, |h.speed - p| ≤ r ∨ h.speed = p) ∧
        List.Chain' (fun s1 s2 => |s2.speed - s1.speed| ≤ r ∨ s2.speed = s1.speed) out := by
  intro raw
  induction raw with
  | nil =>
      intro prev out hok
      rw [constrain_nil, Except.ok.injEq] at hok
      rw [← hok]
      exact ⟨by simp, List.chain'_nil⟩
  | cons seg rest ih =>
      intro prev out hok
      rw [constrain_cons] at hok
      rcases except_bind_ok_iff.mp hok with ⟨tail, htail, hpure⟩
      rw [except_pure_eq_ok, Except.ok.injEq] at hpure
      obtain ⟨hrel, hchain⟩ := ih _ _ htail
      rw [← hpure]
      constructor
      · intro p hp h hh
        rw [List.head?_cons, Option.mem_def, Option.some.injEq] at hh
        rw [← hh]
        rw [hp]
        simp only [stepSpeedCue]
        exact rampApply_rel
      · refine List.chain'_cons'.mpr ⟨?_, hchain⟩
        intro y hy
        have := hrel _ rfl y hy
        simpa using this

/-- **Ramp chain, non-negative limit.**  When the ramp limit is
non-negative and the previous emitted speed is allowed, the stall
fallback is unreachable: every adjacent pair is within the limit. -/
theorem constrain_chain_nonneg (a : ℚ) (l : List ℚ) (r : ℚ) (h0 : 0 ≤ r) :
    ∀ (raw : List Segment) (prev : Option ℚ) (out : List Segment),
      (∀ p, prev = some p → p ∈ a :: l) →
      constrain (a :: l) (some r) prev raw = .ok out →
      (∀ p, prev = some p → ∀ h ∈ out.head?, |h.speed - p| ≤ r) ∧
        List.Chain' (fun s1 s2 => |s2.speed - s1.speed| ≤ r) out := by
  intro raw
  induction raw with
  | nil =>
      intro prev out _ hok
      rw [constrain_nil, Except.ok.injEq] at hok
      rw [← hok]
      exact ⟨by simp, List.chain'_nil⟩
  | cons seg rest ih =>
      intro prev out hprev hok
      rw [constrain_cons] at hok
      rcases except_bind_ok_iff.mp hok with ⟨tail, htail, hpure⟩
      rw [except_pure_eq_ok, Except.ok.injEq] at hpure
      have hsc : (stepSpeedCue (a :: l) (some r) prev (qdGo seg.speed a (a :: l)) seg.cue).1 ∈ a :: l :=
        stepSpeedCue_mem (qdGo_full_mem seg.speed a l) hprev
      obtain ⟨hrel, hchain⟩ :=
        ih _ _ (fun p hp => by rw [Option.some.injEq] at hp; rw [← hp]; exact hsc) htail
      rw [← hpure]
      constructor
      · intro p hp h hh
        rw [List.head?_cons, Option.mem_def, Option.some.injEq] at hh
        rw [← hh]
        rw [hp]
        simp only [stepSpeedCue]
        exact rampApply_rel_of_nonneg h0 (hprev p hp)
      · refine List.chain'_cons'.mpr ⟨?_, hchain⟩
        intro y hy
        have := hrel _ rfl y hy
        simpa using this

/-! ## Merge-pass lemmas -/

theorem mergeGo_head_speed (m : ℚ) :
    ∀ (l : List Segment) (cur : Segment), ∀ h ∈ (mergeGo m cur l).head?, h.speed = cur.speed := by
  intro l
  induction l with
  | nil =>
      intro cur h hh
      simp only [mergeGo, List.head?_cons, Option.mem_def, Option.some.injEq] at hh
      rw [← hh]
  | cons s rest ih =>
      intro cur h hh
      simp only [mergeGo] at hh
      split at hh
      · have h2 := ih _ h hh
        simpa using h2
      · simp only [List.head?_cons, Option.mem_def, Option.some.injEq] at hh
        rw [← hh]

/-- The single-pass merge preserves any adjacent-pair invariant that
depends only on segment speeds. -/
theorem mergeGo_chain_rel (m : ℚ) (R : Segment → Segment → Prop)
    (hR : ∀ s s' t t', s.speed = s'.speed → t.speed = t'.speed → R s t → R s' t') :
    ∀ (l : List Segment) (cur : Segment),
      List.Chain' R (cur :: l) → List.Chain' R (mergeGo m cur l) := by
  intro l
  induction l with
  | nil =>
      intro cur _
      simp [mergeGo]
  | cons s rest ih =>
      intro cur hchain
      obtain ⟨hcs, hchain'⟩ := List.chain'_cons'.mp hchain
      simp only [mergeGo]
      split
      · rename_i hcond
        refine ih _ (List.chain'_cons'.mpr ⟨?_, (List.chain'_cons'.mp hchain').2⟩)
        intro y hy
        have hsy := (List.chain'_cons'.mp hchain').1 y hy
        exact hR s _ y y (by simp [hcond.1]) rfl hsy
      · refine List.chain'_cons'.mpr ⟨?_, ih s hchain'⟩
        intro y hy
        have hys : y.speed = s.speed := mergeGo_head_speed m rest s y hy
        exact hR cur cur s y rfl hys.symm (hcs s (by simp))

/-- After the single merge pass, no two adjacent segments of equal speed
are both below the minimum duration. -/
theorem mergeGo_chain_min (m : ℚ) :
    ∀ (l : List Segment) (cur : Segment),
      List.Chain' (fun s1 s2 => s1.speed = s2.speed → ¬(s1.secs < m ∧ s2.secs < m))
        (mergeGo m cur l) := by
  intro l
  induction l with
  | nil => intro cur; simp [mergeGo]
  | cons s rest ih =>
      intro cur
      simp only [mergeGo]
      split
      · exact ih _
      · rename_i hcond
        refine List.chain'_cons'.mpr ⟨?_, ih s⟩
        intro y hy hsp hcontra
        have hys : y.speed = s.speed := mergeGo_head_speed m rest s y hy
        rw [not_and_or, not_or] at hcond
        rcases hcond with hne | ⟨hc1, _⟩
        · exact hne (hsp.trans hys)
        · exact hc1 hcontra.1

/-- Every speed of the merged list is a speed of the input list. -/
theorem mergeGo_speed_mem (m : ℚ) :
    ∀ (l : List Segment) (cur : Segment) (s : Segment),
      s ∈ mergeGo m cur l → s.speed ∈ cur.speed :: l.map Segment.speed := by
  intro l
  induction l with
  | nil =>
      intro cur s hs
      simp only [mergeGo, List.mem_singleton] at hs
      simp [hs]
  | cons seg rest ih =>
      intro cur s hs
      simp only [mergeGo] at hs
      split at hs
      · rename_i hcond
        have := ih _ s hs
        rcases List.mem_cons.mp this with heq | hmem
        · simp only [List.map_cons]
          exact heq ▸ List.mem_cons_self _ _
        · simp only [List.map_cons]
          exact List.mem_cons_of_mem _ (List.mem_cons_of_mem _ hmem)
      · rcases List.mem_cons.mp hs with rfl | hs'
        · exact List.mem_cons_self _ _
        · have := ih seg s hs'
          simp only [List.map_cons]
          rcases List.mem_cons.mp this with heq | hmem
          · exact List.mem_cons_of_mem _ (heq ▸ List.mem_cons_self _ _)
          · exact List.mem_cons_of_mem _ (List.mem_cons_of_mem _ hmem)

theorem mergePass_speed_mem (ms : Option ℚ) (l : List Segment) (s : Segment)
    (hs : s ∈ mergePass ms l) : s.speed ∈ l.map Segment.speed := by
  match ms with
  | none => exact List.mem_map_of_mem Segment.speed hs
  | some m =>
      match l with
      | [] => exact absurd hs (List.not_mem_nil s)
      | seg :: rest =>
          have := mergeGo_speed_mem m rest seg s hs
          simpa using this

theorem mergePass_chain_rel (ms : Option ℚ) (R : Segment → Segment → Prop)
    (hR : ∀ s s' t t', s.speed = s'.speed → t.speed = t'.speed → R s t → R s' t')
    (l : List Segment) (hchain : List.Chain' R l) :
    List.Chain' R (mergePass ms l) := by
  match ms with
  | none => exact hchain
  | some m =>
      match l with
      | [] => exact List.chain'_nil
      | seg :: rest => exact mergeGo_chain_rel m R hR rest seg hchain

theorem mergePass_chain_min (m : ℚ) (l : List Segment) :
    List.Chain' (fun s1 s2 => s1.speed = s2.speed → ¬(s1.secs < m ∧ s2.secs < m))
      (mergePass (some m) l) := by
  match l with
  | [] => exact List.chain'_nil
  | seg :: rest => exact mergeGo_chain_min m rest seg

/-! ## Pipeline lemmas -/

theorem applySafety_eq {p : DeviceProfile} (raw : List Segment) {a : ℚ} {l : List ℚ}
    (h : sortSpeeds p.speeds = a :: l) :
    ∃ c, constrain (a :: l) p.rampLimitPerChange none raw = .ok c ∧
      applySafety p raw = .ok (mergePass p.minSegmentSec c) := by
  obtain ⟨c, hc⟩ := constrain_ok a l p.rampLimitPerChange raw none
  refine ⟨c, hc, ?_⟩
  simp only [applySafety, h]
  rw [hc]
  rfl

theorem foldl_secs_eq (l : List Segment) :
    ∀ acc : ℚ, l.foldl (fun sum segment => sum + segment.secs) acc =
      acc + (l.map Segment.secs).sum := by
  induction l with
  | nil => intro acc; simp
  | cons s rest ih =>
      intro acc
      simp only [List.foldl_cons, List.map_cons, List.sum_cons]
      rw [ih (acc + s.secs)]
      ring

theorem finalizeWorkout_eq {p : DeviceProfile} (nm : Option String) (raw : List Segment)
    {a : ℚ} {l : List ℚ} (h : sortSpeeds p.speeds = a :: l) :
    ∃ c, constrain (a :: l) p.rampLimitPerChange none raw = .ok c ∧
      finalizeWorkout p nm raw = .ok
        { name := nm.getD p.name, units := p.units,
          totalSecs := (mergePass p.minSegmentSec c).foldl (fun sum segment => sum + segment.secs) 0,
          segments := mergePass p.minSegmentSec c } := by
  obtain ⟨c, hc, happ⟩ := applySafety_eq raw h
  refine ⟨c, hc, ?_⟩
  simp only [finalizeWorkout]
  rw [happ]
  rfl

/-- The workout built by `finalizeWorkout` always records the sum of its
own post-merge segment durations. -/
theorem finalizeWorkout_totalSecs {p : DeviceProfile} {nm : Option String}
    {raw : List Segment} {w : Workout} (h : finalizeWorkout p nm raw = .ok w) :
    w.totalSecs = (w.segments.map Segment.secs).sum := by
  unfold finalizeWorkout at h
  rcases except_bind_ok_iff.mp h with ⟨c, _, hpure⟩
  rw [except_pure_eq_ok, Except.ok.injEq] at hpure
  rw [← hpure]
  simp [foldl_secs_eq]

theorem finalize_speed_mem {p : DeviceProfile} {nm : Option String}
    {raw : List Segment} {w : Workout} {a : ℚ} {l : List ℚ}
    (hsort : sortSpeeds p.speeds = a :: l)
    (hok : finalizeWorkout p nm raw = .ok w) :
    ∀ s ∈ w.segments, s.speed ∈ p.speeds := by
  obtain ⟨c, hc, hfin⟩ := finalizeWorkout_eq nm raw hsort
  rw [hok, Except.ok.injEq] at hfin
  intro s hs
  rw [hfin] at hs
  have hmap : s.speed ∈ c.map Segment.speed := mergePass_speed_mem _ _ _ hs
  rcases List.mem_map.mp hmap with ⟨s', hs', hsp⟩
  have : s'.speed ∈ a :: l :=
    constrain_mem a l p.rampLimitPerChange raw none c (by intro p' hp'; cases hp') hc s' hs'
  rw [← hsort] at this
  rw [← hsp]
  exact mem_sortSpeeds.mp this

theorem except_error_bind {ε α β : Type} (e : ε) (f : α → Except ε β) :
    (Except.error e >>= f : Except ε β) = .error e := rfl

theorem finalizeWorkout_isOk {p : DeviceProfile} {a : ℚ} {l : List ℚ}
    (h : sortSpeeds p.speeds = a :: l) (nm : Option String) (raw : List Segment) :
    ∃ w, finalizeWorkout p nm raw = .ok w := by
  obtain ⟨c, _, hfin⟩ := finalizeWorkout_eq nm raw h
  exact ⟨_, hfin⟩

/-! ## Builder plumbing -/

theorem makeIntervals_ok_shape {p : DeviceProfile} {o : IntervalPlanOpts} {w : Workout}
    (h : makeIntervals p o = .ok w) : ∃ nm raw, finalizeWorkout p nm raw = .ok w := by
  simp only [makeIntervals] at h
  rcases except_bind_ok_iff.mp h with ⟨warm, _, h⟩
  rcases except_bind_ok_iff.mp h with ⟨hard, _, h⟩
  rcases except_bind_ok_iff.mp h with ⟨easy, _, h⟩
  exact ⟨_, _, h⟩

theorem makeSteady_ok_shape {p : DeviceProfile} {o : SteadyOpts} {w : Workout}
    (h : makeSteady p o = .ok w) : ∃ nm raw, finalizeWorkout p nm raw = .ok w := by
  simp only [makeSteady] at h
  rcases except_bind_ok_iff.mp h with ⟨warm, _, h⟩
  rcases except_bind_ok_iff.mp h with ⟨cruise, _, h⟩
  split at h
  · rcases except_bind_ok_iff.mp h with ⟨stride, _, h⟩
    exact ⟨_, _, h⟩
  · exact ⟨_, _, h⟩

theorem makeProgression_ok_shape {p : DeviceProfile} {o : ProgressionOpts} {w : Workout}
    (h : makeProgression p o = .ok w) : ∃ nm raw, finalizeWorkout p nm raw = .ok w := by
  simp only [makeProgression] at h
  rcases except_bind_ok_iff.mp h with ⟨warm, _, h⟩
  rcases except_bind_ok_iff.mp h with ⟨top, _, h⟩
  exact ⟨_, _, h⟩

theorem makeIntervals_isOk {p : DeviceProfile} {a : ℚ} {l : List ℚ}
    (h : sortSpeeds p.speeds = a :: l) (o : IntervalPlanOpts) :
    ∃ w, makeIntervals p o = .ok w := by
  simp only [makeIntervals, h, quantizeDown_cons, except_ok_bind]
  exact finalizeWorkout_isOk h _ _

theorem makeSteady_isOk {p : DeviceProfile} {a : ℚ} {l : List ℚ}
    (h : sortSpeeds p.speeds = a :: l) (o : SteadyOpts) :
    ∃ w, makeSteady p o = .ok w := by
  simp only [makeSteady, h, quantizeDown_cons, except_ok_bind]
  split
  · exact finalizeWorkout_isOk h _ _
  · exact finalizeWorkout_isOk h _ _

theorem makeProgression_isOk {p : DeviceProfile} {a : ℚ} {l : List ℚ}
    (h : sortSpeeds p.speeds = a :: l) (o : ProgressionOpts) :
    ∃ w, makeProgression p o = .ok w := by
  simp only [makeProgression, h, quantizeDown_cons, except_ok_bind]
  exact finalizeWorkout_isOk h _ _

theorem exists_sorted_cons {p : DeviceProfile} (h : p.speeds ≠ []) :
    ∃ a l, sortSpeeds p.speeds = a :: l := by
  cases hs : sortSpeeds p.speeds with
  | nil => exact absurd hs (sortSpeeds_ne_nil h)
  | cons a l => exact ⟨a, l, rfl⟩

theorem finalize_chain_ramp {p : DeviceProfile} {nm : Option String}
    {raw : List Segment} {w : Workout} {a r : ℚ} {l : List ℚ}
    (hsort : sortSpeeds p.speeds = a :: l) (hr : p.rampLimitPerChange = some r)
    (hok : finalizeWorkout p nm raw = .ok w) :
    List.Chain' (fun s1 s2 => |s2.speed - s1.speed| ≤ r ∨ s2.speed = s1.speed) w.segments := by
  obtain ⟨c, hc, hfin⟩ := finalizeWorkout_eq nm raw hsort
  rw [hok, Except.ok.injEq] at hfin
  rw [hfin]
  rw [hr] at hc
  have hchain := (constrain_chain a l r raw none c hc).2
  exact mergePass_chain_rel _ _
    (fun s s' t t' hs ht hR => by
      rcases hR with h1 | h1
      · left; rw [← hs, ← ht]; exact h1
      · right; rw [← hs, ← ht]; exact h1)
    c hchain

theorem finalize_chain_min {p : DeviceProfile} {nm : Option String}
    {raw : List Segment} {w : Workout} {m : ℚ}
    (hsort : ∃ a l, sortSpeeds p.speeds = a :: l) (hm : p.minSegmentSec = some m)
    (hok : finalizeWorkout p nm raw = .ok w) :
    List.Chain' (fun s1 s2 => s1.speed = s2.speed → ¬(s1.secs < m ∧ s2.secs < m))
      w.segments := by
  obtain ⟨a, l, hsort⟩ := hsort
  obtain ⟨c, hc, hfin⟩ := finalizeWorkout_eq nm raw hsort
  rw [hok, Except.ok.injEq] at hfin
  rw [hfin]
  rw [hm]
  exact mergePass_chain_min m c

/-! ## Claim C1 -/

/-- **C1.** For every device profile with non-empty speeds and all
options, each of the three builders returns a workout all of whose
segment speeds are elements of `profile.speeds`. -/
theorem builders_speed_mem (p : DeviceProfile) (h : p.speeds ≠ [])
    (oI : IntervalPlanOpts) (oS : SteadyOpts) (oP : ProgressionOpts) :
    (∃ w, makeIntervals p oI = .ok w ∧ ∀ s ∈ w.segments, s.speed ∈ p.speeds) ∧
      (∃ w, makeSteady p oS = .ok w ∧ ∀ s ∈ w.segments, s.speed ∈ p.speeds) ∧
      (∃ w, makeProgression p oP = .ok w ∧ ∀ s ∈ w.segments, s.speed ∈ p.speeds) := by
  obtain ⟨a, l, hsort⟩ := exists_sorted_cons h
  refine ⟨?_, ?_, ?_⟩
  · obtain ⟨w, hw⟩ := makeIntervals_isOk hsort oI
    obtain ⟨nm, raw, hfin⟩ := makeIntervals_ok_shape hw
    exact ⟨w, hw, finalize_speed_mem hsort hfin⟩
  · obtain ⟨w, hw⟩ := makeSteady_isOk hsort oS
    obtain ⟨nm, raw, hfin⟩ := makeSteady_ok_shape hw
    exact ⟨w, hw, finalize_speed_mem hsort hfin⟩
  · obtain ⟨w, hw⟩ := makeProgression_isOk hsort oP
    obtain ⟨nm, raw, hfin⟩ := makeProgression_ok_shape hw
    exact ⟨w, hw, finalize_speed_mem hsort hfin⟩

/-- Witness for C1: the single-speed profile always yields workouts on the
speed `2`. -/
theorem builders_speed_mem_witness :
    (DeviceProfile.mk "T" .mph [2] none none none).speeds ≠ [] ∧
      ((∃ w, makeIntervals (DeviceProfile.mk "T" .mph [2] none none none) {} = .ok w ∧
          ∀ s ∈ w.segments, s.speed ∈ (DeviceProfile.mk "T" .mph [2] none none none).speeds) ∧
        (∃ w, makeSteady (DeviceProfile.mk "T" .mph [2] none none none) {} = .ok w ∧
          ∀ s ∈ w.segments, s.speed ∈ (DeviceProfile.mk "T" .mph [2] none none none).speeds) ∧
        (∃ w, makeProgression (DeviceProfile.mk "T" .mph [2] none none none) {} = .ok w ∧
          ∀ s ∈ w.segments, s.speed ∈ (DeviceProfile.mk "T" .mph [2] none none none).speeds)) :=
  ⟨by decide, builders_speed_mem _ (by decide) {} {} {}⟩

/-! ## Claim C2 -/

/-- **C2.** With a defined ramp limit `r`, every adjacent pair of segments
of a finalized workout (after the merge pass) satisfies
`|speed[i] - speed[i-1]| ≤ r` or has equal speeds (stall case). -/
theorem builders_ramp_chain (p : DeviceProfile) (r : ℚ) (h : p.speeds ≠ [])
    (hr : p.rampLimitPerChange = some r)
    (oI : IntervalPlanOpts) (oS : SteadyOpts) (oP : ProgressionOpts) :
    (∃ w, makeIntervals p oI = .ok w ∧
        List.Chain' (fun s1 s2 => |s2.speed - s1.speed| ≤ r ∨ s2.speed = s1.speed) w.segments) ∧
      (∃ w, makeSteady p oS = .ok w ∧
        List.Chain' (fun s1 s2 => |s2.speed - s1.speed| ≤ r ∨ s2.speed = s1.speed) w.segments) ∧
      (∃ w, makeProgression p oP = .ok w ∧
        List.Chain' (fun s1 s2 => |s2.speed - s1.speed| ≤ r ∨ s2.speed = s1.speed) w.segments) ∧
      (∀ raw out, constrain (sortSpeeds p.speeds) p.rampLimitPerChange none raw = .ok out →
        List.Chain' (fun s1 s2 => |s2.speed - s1.speed| ≤ r ∨ s2.speed = s1.speed) out) := by
  obtain ⟨a, l, hsort⟩ := exists_sorted_cons h
  refine ⟨?_, ?_, ?_, ?_⟩
  · obtain ⟨w, hw⟩ := makeIntervals_isOk hsort oI
    obtain ⟨nm, raw, hfin⟩ := makeIntervals_ok_shape hw
    exact ⟨w, hw, finalize_chain_ramp hsort hr hfin⟩
  · obtain ⟨w, hw⟩ := makeSteady_isOk hsort oS
    obtain ⟨nm, raw, hfin⟩ := makeSteady_ok_shape hw
    exact ⟨w, hw, finalize_chain_ramp hsort hr hfin⟩
  · obtain ⟨w, hw⟩ := makeProgression_isOk hsort oP
    obtain ⟨nm, raw, hfin⟩ := makeProgression_ok_shape hw
    exact ⟨w, hw, finalize_chain_ramp hsort hr hfin⟩
  · intro raw out hok
    rw [hsort, hr] at hok
    exact (constrain_chain a l r raw none out hok).2

/-- Witness for C2 on a two-speed profile with ramp limit `1`. -/
theorem builders_ramp_chain_witness :
    ((DeviceProfile.mk "T" .mph [2, 3] none none (some 1)).speeds ≠ [] ∧
        (DeviceProfile.mk "T" .mph [2, 3] none none (some 1)).rampLimitPerChange = some 1) ∧
      ((∃ w, makeIntervals (DeviceProfile.mk "T" .mph [2, 3] none none (some 1)) {} = .ok w ∧
          List.Chain' (fun s1 s2 => |s2.speed - s1.speed| ≤ 1 ∨ s2.speed = s1.speed) w.segments) ∧
        (∃ w, makeSteady (DeviceProfile.mk "T" .mph [2, 3] none none (some 1)) {} = .ok w ∧
          List.Chain' (fun s1 s2 => |s2.speed - s1.speed| ≤ 1 ∨ s2.speed = s1.speed) w.segments) ∧
        (∃ w, makeProgression (DeviceProfile.mk "T" .mph [2, 3] none none (some 1)) {} = .ok w ∧
          List.Chain' (fun s1 s2 => |s2.speed - s1.speed| ≤ 1 ∨ s2.speed = s1.speed) w.segments) ∧
        (∀ raw out,
          constrain (sortSpeeds (DeviceProfile.mk "T" .mph [2, 3] none none (some 1)).speeds)
              (DeviceProfile.mk "T" .mph [2, 3] none none (some 1)).rampLimitPerChange none raw =
            .ok out →
          List.Chain' (fun s1 s2 => |s2.speed - s1.speed| ≤ 1 ∨ s2.speed = s1.speed) out)) :=
  ⟨⟨by decide, rfl⟩, builders_ramp_chain _ 1 (by decide) rfl {} {} {}⟩

/-! ## Claim C4 -/

/-- **C4.** With `minSegmentSec = m` defined, the finalized workout of any
builder contains no two adjacent equal-speed segments that are both
shorter than `m` (single-pass merge guarantee). -/
theorem builders_merge_min (p : DeviceProfile) (m : ℚ) (h : p.speeds ≠ [])
    (hm : p.minSegmentSec = some m)
    (oI : IntervalPlanOpts) (oS : SteadyOpts) (oP : ProgressionOpts) :
    (∃ w, makeIntervals p oI = .ok w ∧
        List.Chain' (fun s1 s2 => s1.speed = s2.speed → ¬(s1.secs < m ∧ s2.secs < m)) w.segments) ∧
      (∃ w, makeSteady p oS = .ok w ∧
        List.Chain' (fun s1 s2 => s1.speed = s2.speed → ¬(s1.secs < m ∧ s2.secs < m)) w.segments) ∧
      (∃ w, makeProgression p oP = .ok w ∧
        List.Chain' (fun s1 s2 => s1.speed = s2.speed → ¬(s1.secs < m ∧ s2.secs < m)) w.segments) := by
  obtain ⟨a, l, hsort⟩ := exists_sorted_cons h
  refine ⟨?_, ?_, ?_⟩
  · obtain ⟨w, hw⟩ := makeIntervals_isOk hsort oI
    obtain ⟨nm, raw, hfin⟩ := makeIntervals_ok_shape hw
    exact ⟨w, hw, finalize_chain_min ⟨a, l, hsort⟩ hm hfin⟩
  · obtain ⟨w, hw⟩ := makeSteady_isOk hsort oS
    obtain ⟨nm, raw, hfin⟩ := makeSteady_ok_shape hw
    exact ⟨w, hw, finalize_chain_min ⟨a, l, hsort⟩ hm hfin⟩
  · obtain ⟨w, hw⟩ := makeProgression_isOk hsort oP
    obtain ⟨nm, raw, hfin⟩ := makeProgression_ok_shape hw
    exact ⟨w, hw, finalize_chain_min ⟨a, l, hsort⟩ hm hfin⟩

/-- Witness for C4 on a single-speed profile with `minSegmentSec = 30`. -/
theorem builders_merge_min_witness :
    ((DeviceProfile.mk "T" .mph [2] none (some 30) none).speeds ≠ [] ∧
        (DeviceProfile.mk "T" .mph [2] none (some 30) none).minSegmentSec = some 30) ∧
      ((∃ w, makeIntervals (DeviceProfile.mk "T" .mph [2] none (some 30) none) {} = .ok w ∧
          List.Chain' (fun s1 s2 => s1.speed = s2.speed → ¬(s1.secs < 30 ∧ s2.secs < 30)) w.segments) ∧
        (∃ w, makeSteady (DeviceProfile.mk "T" .mph [2] none (some 30) none) {} = .ok w ∧
          List.Chain' (fun s1 s2 => s1.speed = s2.speed → ¬(s1.secs < 30 ∧ s2.secs < 30)) w.segments) ∧
        (∃ w, makeProgression (DeviceProfile.mk "T" .mph [2] none (some 30) none) {} = .ok w ∧
          List.Chain' (fun s1 s2 => s1.speed = s2.speed → ¬(s1.secs < 30 ∧ s2.secs < 30)) w.segments)) :=
  ⟨⟨by decide, rfl⟩, builders_merge_min _ 30 (by decide) rfl {} {} {}⟩

/-! ## Claim C5 -/

/-- **C5.** Every workout returned by a builder records as `totalSecs` the
sum of the durations of its own (post-merge) segment list. -/
theorem builders_totalSecs (p : DeviceProfile) (h : p.speeds ≠ [])
    (oI : IntervalPlanOpts) (oS : SteadyOpts) (oP : ProgressionOpts) :
    (∃ w, makeIntervals p oI = .ok w ∧ w.totalSecs = (w.segments.map Segment.secs).sum) ∧
      (∃ w, makeSteady p oS = .ok w ∧ w.totalSecs = (w.segments.map Segment.secs).sum) ∧
      (∃ w, makeProgression p oP = .ok w ∧ w.totalSecs = (w.segments.map Segment.secs).sum) := by
  obtain ⟨a, l, hsort⟩ := exists_sorted_cons h
  refine ⟨?_, ?_, ?_⟩
  · obtain ⟨w, hw⟩ := makeIntervals_isOk hsort oI
    obtain ⟨nm, raw, hfin⟩ := makeIntervals_ok_shape hw
    exact ⟨w, hw, finalizeWorkout_totalSecs hfin⟩
  · obtain ⟨w, hw⟩ := makeSteady_isOk hsort oS
    obtain ⟨nm, raw, hfin⟩ := makeSteady_ok_shape hw
    exact ⟨w, hw, finalizeWorkout_totalSecs hfin⟩
  · obtain ⟨w, hw⟩ := makeProgression_isOk hsort oP
    obtain ⟨nm, raw, hfin⟩ := makeProgression_ok_shape hw
    exact ⟨w, hw, finalizeWorkout_totalSecs hfin⟩

/-- Witness for C5 on the single-speed profile. -/
theorem builders_totalSecs_witness :
    (DeviceProfile.mk "T" .mph [2] none none none).speeds ≠ [] ∧
      ((∃ w, makeIntervals (DeviceProfile.mk "T" .mph [2] none none none) {} = .ok w ∧
          w.totalSecs = (w.segments.map Segment.secs).sum) ∧
        (∃ w, makeSteady (DeviceProfile.mk "T" .mph [2] none none none) {} = .ok w ∧
          w.totalSecs = (w.segments.map Segment.secs).sum) ∧
        (∃ w, makeProgression (DeviceProfile.mk "T" .mph [2] none none none) {} = .ok w ∧
          w.totalSecs = (w.segments.map Segment.secs).sum)) :=
  ⟨by decide, builders_totalSecs _ (by decide) {} {} {}⟩

/-! ## Claim C6 -/

/-- **C6.** With an empty speeds list, each builder fails immediately with
the empty-domain error raised by `quantizeDown` and returns no workout. -/
theorem builders_empty_domain (p : DeviceProfile) (h : p.speeds = [])
    (oI : IntervalPlanOpts) (oS : SteadyOpts) (oP : ProgressionOpts) :
    makeIntervals p oI = .error .emptyDomain ∧
      makeSteady p oS = .error .emptyDomain ∧
      makeProgression p oP = .error .emptyDomain := by
  have hs : sortSpeeds p.speeds = [] := by rw [h]; rfl
  refine ⟨?_, ?_, ?_⟩
  · simp [makeIntervals, hs, quantizeDown, except_error_bind]
  · simp [makeSteady, hs, quantizeDown, except_error_bind]
  · simp [makeProgression, hs, quantizeDown, except_error_bind]

/-- Witness for C6 with an empty profile. -/
theorem builders_empty_domain_witness :
    (DeviceProfile.mk "E" .kph [] none none none).speeds = [] ∧
      (makeIntervals (DeviceProfile.mk "E" .kph [] none none none) {} = .error .emptyDomain ∧
        makeSteady (DeviceProfile.mk "E" .kph [] none none none) {} = .error .emptyDomain ∧
        makeProgression (DeviceProfile.mk "E" .kph [] none none none) {} = .error .emptyDomain) :=
  ⟨rfl, builders_empty_domain _ rfl {} {} {}⟩

/-! ## Claim C10 -/

/-- **C10.** With a non-negative defined ramp limit, the previous emitted
speed always belongs to the candidate set (so the stall fallback is
unreachable), and every adjacent pair of the constrained (pre-merge) list
is within the ramp limit, with no separate stall case. -/
theorem constrain_no_stall (p : DeviceProfile) (r : ℚ) (a : ℚ) (l : List ℚ)
    (hsort : sortSpeeds p.speeds = a :: l) (hr : p.rampLimitPerChange = some r)
    (h0 : 0 ≤ r) (raw : List Segment) :
    (∀ prevSpeed ∈ a :: l,
        prevSpeed ∈ (a :: l).filter (fun value => decide (|value - prevSpeed| ≤ r))) ∧
      ∀ out, constrain (a :: l) p.rampLimitPerChange none raw = .ok out →
        List.Chain' (fun s1 s2 => |s2.speed - s1.speed| ≤ r) out := by
  constructor
  · intro ps hps
    rw [List.mem_filter]
    exact ⟨hps, by simpa using h0⟩
  · intro out hok
    rw [hr] at hok
    exact (constrain_chain_nonneg a l r h0 raw none out (by intro p' hp'; cases hp') hok).2

/-- Witness for C10 on `speeds = [2, 3]`, ramp limit `1`, a two-segment
raw plan. -/
theorem constrain_no_stall_witness :
    (sortSpeeds (DeviceProfile.mk "T" .mph [2, 3] none none (some 1)).speeds = [2, 3] ∧
        (DeviceProfile.mk "T" .mph [2, 3] none none (some 1)).rampLimitPerChange = some 1 ∧
        (0 : ℚ) ≤ 1) ∧
      ((∀ prevSpeed ∈ [(2 : ℚ), 3],
          prevSpeed ∈ [(2 : ℚ), 3].filter (fun value => decide (|value - prevSpeed| ≤ 1))) ∧
        ∀ out,
          constrain [(2 : ℚ), 3] (DeviceProfile.mk "T" .mph [2, 3] none none (some 1)).rampLimitPerChange
              none [Segment.mk 60 9 none none, Segment.mk 60 2 none none] = .ok out →
          List.Chain' (fun s1 s2 => |s2.speed - s1.speed| ≤ 1) out) :=
  ⟨⟨by with_unfolding_all rfl, rfl, by decide⟩,
    constrain_no_stall _ 1 2 [3] (by with_unfolding_all rfl) rfl (by decide)
      [Segment.mk 60 9 none none, Segment.mk 60 2 none none]⟩

/-! ## Rounding lemmas -/

theorem ratFloor_eq_intFloor (q : ℚ) : Rat.floor q = ⌊q⌋ := by
  rw [Rat.floor_def', Rat.floor_def]

theorem jsRoundInt_mono {q1 q2 : ℚ} (h : q1 ≤ q2) : jsRoundInt q1 ≤ jsRoundInt q2 := by
  unfold jsRoundInt
  rw [ratFloor_eq_intFloor, ratFloor_eq_intFloor]
  exact Int.floor_le_floor (by linarith)

theorem jsRoundInt_nonneg {q : ℚ} (h : 0 ≤ q) : 0 ≤ jsRoundInt q := by
  unfold jsRoundInt
  rw [ratFloor_eq_intFloor]
  exact Int.le_floor.mpr (by push_cast; linarith)

theorem jsRoundInt_le_intCast {q : ℚ} {z : ℤ} (h : q ≤ (z : ℚ)) : jsRoundInt q ≤ z := by
  unfold jsRoundInt
  rw [ratFloor_eq_intFloor]
  have hlt : (q + 1/2 : ℚ) < ((z + 1 : ℤ) : ℚ) := by push_cast; linarith
  exact Int.lt_add_one_iff.mp (Int.floor_lt.mpr hlt)

theorem sorted_getD_mono {usable : List ℚ} (hu : List.Sorted (· ≤ ·) usable)
    {i j : ℕ} (hij : i ≤ j) (hj : j < usable.length) :
    usable.getD i 0 ≤ usable.getD j 0 := by
  rcases lt_or_eq_of_le hij with hlt | rfl
  · rw [List.getD_eq_getElem usable 0 (lt_of_le_of_lt hij hj),
      List.getD_eq_getElem usable 0 hj]
    exact List.pairwise_iff_getElem.mp hu i j (lt_of_le_of_lt hij hj) hj hlt
  · exact le_refl _

/-! ## Claim C8 -/

theorem progressionLadder_length (stepCount : ℕ) (usable : List ℚ) (warm : ℚ) :
    (progressionLadder stepCount usable warm).length = stepCount := by
  unfold progressionLadder
  rw [List.length_map, List.length_range]

theorem progressionLadder_getElem (stepCount : ℕ) (usable : List ℚ) (warm : ℚ)
    (k : ℕ) {hk : k < (progressionLadder stepCount usable warm).length} :
    (progressionLadder stepCount usable warm)[k] =
      if usable.length = 0 then warm
      else
        usable.getD
          (if stepCount = 1 then usable.length - 1
           else (jsRoundInt ((k : ℚ) / ((stepCount : ℚ) - 1) *
             ((usable.length : ℚ) - 1))).toNat) 0 := by
  unfold progressionLadder
  rw [List.getElem_map, List.getElem_range]

/-- The ladder is sampled from a sorted list by a monotone, in-bounds
index map, so it is non-decreasing. -/
theorem progressionLadder_sorted (stepCount : ℕ) (usable : List ℚ) (warm : ℚ)
    (hu : List.Sorted (· ≤ ·) usable) :
    List.Sorted (· ≤ ·) (progressionLadder stepCount usable warm) := by
  refine List.pairwise_iff_getElem.mpr ?_
  intro i j hi hj hij
  rw [progressionLadder_length] at hi hj
  rw [progressionLadder_getElem stepCount usable warm i,
    progressionLadder_getElem stepCount usable warm j]
  by_cases hm : usable.length = 0
  · rw [if_pos hm, if_pos hm]
  · rw [if_neg hm, if_neg hm]
    by_cases h1 : stepCount = 1
    · exfalso; omega
    · rw [if_neg h1, if_neg h1]
      have hsc2 : 2 ≤ stepCount := by omega
      have hden : (0 : ℚ) < (stepCount : ℚ) - 1 := by
        have : (2 : ℚ) ≤ (stepCount : ℚ) := by exact_mod_cast hsc2
        linarith
      have hm1 : (0 : ℚ) ≤ (usable.length : ℚ) - 1 := by
        have : (1 : ℚ) ≤ (usable.length : ℚ) := by exact_mod_cast Nat.one_le_iff_ne_zero.mpr hm
        linarith
      have hratio : ∀ k : ℕ, k < stepCount →
          (k : ℚ) / ((stepCount : ℚ) - 1) * ((usable.length : ℚ) - 1) ≤
            (usable.length : ℚ) - 1 := by
        intro k hk
        have hk1 : (k : ℚ) ≤ (stepCount : ℚ) - 1 := by
          have : (k : ℚ) + 1 ≤ (stepCount : ℚ) := by exact_mod_cast hk
          linarith
        have : (k : ℚ) / ((stepCount : ℚ) - 1) ≤ 1 := by
          rw [div_le_one hden]; exact hk1
        calc (k : ℚ) / ((stepCount : ℚ) - 1) * ((usable.length : ℚ) - 1)
            ≤ 1 * ((usable.length : ℚ) - 1) := by
              exact mul_le_mul_of_nonneg_right this hm1
          _ = (usable.length : ℚ) - 1 := one_mul _
      have hmono :
          (i : ℚ) / ((stepCount : ℚ) - 1) * ((usable.length : ℚ) - 1) ≤
            (j : ℚ) / ((stepCount : ℚ) - 1) * ((usable.length : ℚ) - 1) := by
        have hij' : (i : ℚ) ≤ (j : ℚ) := by exact_mod_cast le_of_lt hij
        exact mul_le_mul_of_nonneg_right ((div_le_div_right hden).mpr hij') hm1
      have hbound :
          (jsRoundInt ((j : ℚ) / ((stepCount : ℚ) - 1) * ((usable.length : ℚ) - 1))).toNat <
            usable.length := by
        have h1 : jsRoundInt ((j : ℚ) / ((stepCount : ℚ) - 1) * ((usable.length : ℚ) - 1)) ≤
            (usable.length : ℤ) - 1 :=
          jsRoundInt_le_intCast (by push_cast; exact hratio j hj)
        omega
      exact sorted_getD_mono hu (Int.toNat_le_toNat (jsRoundInt_mono hmono)) hbound

theorem progSteps_map_speed (units : Units) (stepCount : ℕ) (baseStepSecs : ℚ) :
    ∀ (ladder : List ℚ) (remainder : ℚ) (index : ℕ),
      (progSteps units stepCount baseStepSecs ladder remainder index).map Segment.speed =
        ladder := by
  intro ladder
  induction ladder with
  | nil => intro rem idx; rfl
  | cons s rest ih =>
      intro rem idx
      simp only [progSteps, List.map_cons]
      rw [ih]

/-- **C8.** For every device profile with non-empty speeds and every
progression options object, the ladder constructed by `makeProgression`
(sampled from the sorted, filtered speed list) is non-decreasing, and the
`Step` segments of the raw plan carry exactly the ladder speeds in
order. -/
theorem makeProgression_ladder_monotone (p : DeviceProfile) (o : ProgressionOpts)
    (a : ℚ) (l : List ℚ) (hsort : sortSpeeds p.speeds = a :: l) (warm top : ℚ) :
    List.Sorted (· ≤ ·)
      (progressionLadder (max 1 (o.steps.getD 4))
        ((sortSpeeds p.speeds).filter fun speed => decide (warm ≤ speed) && decide (speed ≤ top))
        warm) ∧
      ∀ (baseStepSecs remainder : ℚ) (index : ℕ),
        (progSteps p.units (max 1 (o.steps.getD 4)) baseStepSecs
            (progressionLadder (max 1 (o.steps.getD 4))
              ((sortSpeeds p.speeds).filter fun speed =>
                decide (warm ≤ speed) && decide (speed ≤ top))
              warm)
            remainder index).map Segment.speed =
          progressionLadder (max 1 (o.steps.getD 4))
            ((sortSpeeds p.speeds).filter fun speed =>
              decide (warm ≤ speed) && decide (speed ≤ top))
            warm := by
  constructor
  · exact progressionLadder_sorted _ _ _
      ((sortSpeeds_sorted p.speeds).filter _)
  · intro baseStepSecs remainder index
    exact progSteps_map_speed _ _ _ _ _ _

/-- Witness for C8 on the single-speed profile with default options. -/
theorem makeProgression_ladder_monotone_witness :
    sortSpeeds (DeviceProfile.mk "T" .mph [2] none none none).speeds = [2] ∧
      (List.Sorted (· ≤ ·)
          (progressionLadder (max 1 ((ProgressionOpts.mk none none none none).steps.getD 4))
            ((sortSpeeds (DeviceProfile.mk "T" .mph [2] none none none).speeds).filter fun speed =>
              decide ((2 : ℚ) ≤ speed) && decide (speed ≤ (2 : ℚ)))
            2) ∧
        ∀ (baseStepSecs remainder : ℚ) (index : ℕ),
          (progSteps (DeviceProfile.mk "T" .mph [2] none none none).units
              (max 1 ((ProgressionOpts.mk none none none none).steps.getD 4)) baseStepSecs
              (progressionLadder (max 1 ((ProgressionOpts.mk none none none none).steps.getD 4))
                ((sortSpeeds (DeviceProfile.mk "T" .mph [2] none none none).speeds).filter
                  fun speed => decide ((2 : ℚ) ≤ speed) && decide (speed ≤ (2 : ℚ)))
                2)
              remainder index).map Segment.speed =
            progressionLadder (max 1 ((ProgressionOpts.mk none none none none).steps.getD 4))
              ((sortSpeeds (DeviceProfile.mk "T" .mph [2] none none none).speeds).filter
                fun speed => decide ((2 : ℚ) ≤ speed) && decide (speed ≤ (2 : ℚ)))
              2) :=
  ⟨rfl, makeProgression_ladder_monotone (DeviceProfile.mk "T" .mph [2] none none none)
    (ProgressionOpts.mk none none none none) 2 [] rfl 2 2⟩

/-! ## Claim C7 -/

/-- Without a ramp limit, the constrain loop is the identity on raw plans
whose speeds are already allowed (quantization is idempotent). -/
theorem constrain_id_of_mem {a : ℚ} {l : List ℚ}
    (hsorted : List.Sorted (· ≤ ·) (a :: l)) :
    ∀ (raw : List Segment) (prev : Option ℚ),
      (∀ s ∈ raw, s.speed ∈ a :: l) →
      constrain (a :: l) none prev raw = .ok raw := by
  intro raw
  induction raw with
  | nil => intro prev _; rfl
  | cons seg rest ih =>
      intro prev hmem
      rw [constrain_cons]
      have hid : qdGo seg.speed a (a :: l) = seg.speed :=
        qdGo_idem hsorted _ (hmem seg (List.mem_cons_self _ _))
      have hstep : ∀ pv : Option ℚ,
          stepSpeedCue (a :: l) none pv (qdGo seg.speed a (a :: l)) seg.cue =
            (qdGo seg.speed a (a :: l), seg.cue) := by
        intro pv
        cases pv <;> rfl
      rw [hstep]
      rw [ih _ (fun s hs => hmem s (List.mem_cons_of_mem _ hs))]
      rw [except_ok_bind, except_pure_eq_ok, Except.ok.injEq]
      rw [hid]

/-- With no ramp limit and no minimum-segment threshold, `applySafety` is
the identity on raw plans whose speeds are already allowed. -/
theorem applySafety_id {p : DeviceProfile} {a : ℚ} {l : List ℚ}
    (hsort : sortSpeeds p.speeds = a :: l) (hms : p.minSegmentSec = none)
    (hrl : p.rampLimitPerChange = none) (raw : List Segment)
    (hmem : ∀ s ∈ raw, s.speed ∈ a :: l) :
    applySafety p raw = .ok raw := by
  have hsorted : List.Sorted (· ≤ ·) (a :: l) := hsort ▸ sortSpeeds_sorted p.speeds
  simp only [applySafety, hsort, hrl]
  rw [constrain_id_of_mem hsorted raw none hmem]
  rw [except_ok_bind, hms]
  rfl

/-- Reduction of `makeSteady` under the Scenario D options on a device
with at least three speeds: the stride branch is taken with the fixed
durations of `steadyRebuilt`. -/
theorem makeSteady_eq_rebuilt (p : DeviceProfile) (o : SteadyOpts) {a : ℚ} {l : List ℚ}
    (hsort : sortSpeeds p.speeds = a :: l) (h3 : 3 ≤ p.speeds.length)
    (hm : o.totalMins = some 30) (hi : o.intensity = some (7/10))
    (ha : o.addStrides = some true) :
    makeSteady p o = finalizeWorkout p (some (o.name.getD "Steady"))
      (steadyRebuilt p.units
        (qdGo (clamp (a + ((a :: l).getLast?.getD 0 - a) * (7/20)) a ((a :: l).getLast?.getD 0))
          a (a :: l))
        (qdGo (clamp (((a :: l).getLast?.getD 0) * (7/10)) a ((a :: l).getLast?.getD 0))
          a (a :: l))
        (qdGo (clamp (((a :: l).getLast?.getD 0) * (9/10)) a ((a :: l).getLast?.getD 0))
          a (a :: l))) := by
  have hlen : 3 ≤ (a :: l).length := by
    rw [← hsort, length_sortSpeeds]; exact h3
  simp only [makeSteady, hsort, hm, hi, ha, Option.getD_some, List.head?_cons,
    quantizeDown_cons, except_ok_bind]
  split
  · split
    · with_unfolding_all rfl
    · rename_i hneg
      exfalso
      apply hneg
      with_unfolding_all decide
  · rename_i hneg
    exfalso
    apply hneg
    refine ⟨trivial, ?_, hlen⟩
    with_unfolding_all decide

/-- The cruise target never exceeds the stride target, so quantization
keeps `cruise ≤ stride`. -/
theorem cruise_le_stride {a : ℚ} {l : List ℚ}
    (hsorted : List.Sorted (· ≤ ·) (a :: l)) :
    qdGo (clamp (((a :: l).getLast?.getD 0) * (7/10)) a ((a :: l).getLast?.getD 0)) a (a :: l) ≤
      qdGo (clamp (((a :: l).getLast?.getD 0) * (9/10)) a ((a :: l).getLast?.getD 0)) a
        (a :: l) := by
  apply qdGo_mono (sorted_cons_self hsorted)
  unfold clamp
  rcases le_or_lt 0 ((a :: l).getLast?.getD 0) with hM | hM
  · have h79 : ((a :: l).getLast?.getD 0) * (7/10) ≤ ((a :: l).getLast?.getD 0) * (9/10) := by
      nlinarith
    exact max_le_max (le_refl a) (min_le_min (le_refl _) h79)
  · have h7 : ((a :: l).getLast?.getD 0) ≤ ((a :: l).getLast?.getD 0) * (7/10) := by nlinarith
    have h9 : ((a :: l).getLast?.getD 0) ≤ ((a :: l).getLast?.getD 0) * (9/10) := by nlinarith
    rw [min_eq_left h7, min_eq_left h9]

theorem steadyRebuilt_stride_secs (units : Units) (warm cruise stride : ℚ) :
    ∀ x ∈ steadyRebuilt units warm cruise stride, isStrideSeg x = true → x.secs = 20 := by
  intro x hx
  simp only [steadyRebuilt, List.mem_cons, List.not_mem_nil, or_false] at hx
  rcases hx with rfl | rfl | rfl | rfl | rfl | rfl | rfl | rfl | rfl | rfl | rfl <;>
    intro hstr <;>
    first
      | rfl
      | simp [isStrideSeg] at hstr

theorem steadyRebuilt_stride_speed (units : Units) (warm cruise stride : ℚ) :
    ∀ x ∈ steadyRebuilt units warm cruise stride, isStrideSeg x = true → x.speed = stride := by
  intro x hx
  simp only [steadyRebuilt, List.mem_cons, List.not_mem_nil, or_false] at hx
  rcases hx with rfl | rfl | rfl | rfl | rfl | rfl | rfl | rfl | rfl | rfl | rfl <;>
    intro hstr <;>
    first
      | rfl
      | simp [isStrideSeg] at hstr

theorem steadyRebuilt_cruise_speed (units : Units) (warm cruise stride : ℚ) :
    ∀ x ∈ steadyRebuilt units warm cruise stride,
      (isCruiseSeg x || isEasyBetweenSeg x) = true → x.speed = cruise := by
  intro x hx
  simp only [steadyRebuilt, List.mem_cons, List.not_mem_nil, or_false] at hx
  rcases hx with rfl | rfl | rfl | rfl | rfl | rfl | rfl | rfl | rfl | rfl | rfl <;>
    intro hcru <;>
    first
      | rfl
      | simp [isCruiseSeg, isEasyBetweenSeg] at hcru

/-- Membership of every `steadyRebuilt` speed in the allowed list. -/
theorem steadyRebuilt_mem {a warm cruise stride : ℚ} {l : List ℚ} {units : Units}
    (hw : warm ∈ a :: l) (hc : cruise ∈ a :: l) (hs : stride ∈ a :: l) :
    ∀ s ∈ steadyRebuilt units warm cruise stride, s.speed ∈ a :: l := by
  intro s hmem
  simp only [steadyRebuilt, List.mem_cons, List.not_mem_nil, or_false] at hmem
  rcases hmem with rfl | rfl | rfl | rfl | rfl | rfl | rfl | rfl | rfl | rfl | rfl <;>
    first
      | exact hw
      | exact hc
      | exact hs

set_option maxHeartbeats 4000000 in
/-- **C7 counterexample.**  On the profile `speeds = [1, 2, 3]` with no
further constraints, `makeSteady` with `totalMins = 30`,
`intensity = 0.7`, `addStrides = true` yields stride segments whose speed
equals the cruise speed (both quantize down to `2`), so the stride speed
is *not* strictly greater than the cruise speed. -/
theorem makeSteady_stride_not_strict :
    ∃ w, makeSteady (DeviceProfile.mk "C" .mph [1, 2, 3] none none none)
        (SteadyOpts.mk none (some 30) (some (7/10)) (some true)) = .ok w ∧
      ∃ s ∈ w.segments, isStrideSeg s = true ∧
        ∃ c ∈ w.segments, isCruiseSeg c = true ∧ ¬ c.speed < s.speed := by
  refine ⟨Workout.mk "Steady" .mph 1800
    (steadyRebuilt .mph 1 2 2), by with_unfolding_all rfl, ?_⟩
  refine ⟨{ secs := 20, speed := 2, incline := none, cue := some (.stride 1 2 .mph) },
    by with_unfolding_all decide, rfl,
    { secs := 960, speed := 2, incline := none, cue := some (.cruise 2 .mph) },
    by with_unfolding_all decide, rfl, by decide⟩

set_option maxHeartbeats 1600000 in
/-- **C7 (amended).**  For every device profile with at least three speeds
and with `minSegmentSec` and `rampLimitPerChange` undefined, `makeSteady`
with `totalMins = 30`, `intensity = 0.7`, `addStrides = true` returns a
workout with exactly four stride segments of 20 seconds each, whose
stride speed is greater than **or equal to** the speed of every cruise and
between-strides segment, and `totalSecs = 1800`. -/
theorem makeSteady_strides_spec (p : DeviceProfile) (o : SteadyOpts)
    (h3 : 3 ≤ p.speeds.length) (hms : p.minSegmentSec = none)
    (hrl : p.rampLimitPerChange = none)
    (hm : o.totalMins = some 30) (hi : o.intensity = some (7/10))
    (ha : o.addStrides = some true) :
    ∃ w, makeSteady p o = .ok w ∧
      (w.segments.filter (fun s => isStrideSeg s)).length = 4 ∧
      (∀ s ∈ w.segments, isStrideSeg s = true → s.secs = 20) ∧
      (∀ s ∈ w.segments, isStrideSeg s = true →
        ∀ c ∈ w.segments, (isCruiseSeg c || isEasyBetweenSeg c) = true → c.speed ≤ s.speed) ∧
      w.totalSecs = 1800 := by
  obtain ⟨a, l, hsort⟩ : ∃ a l, sortSpeeds p.speeds = a :: l := by
    refine exists_sorted_cons ?_
    intro hnil
    rw [hnil] at h3
    exact absurd h3 (by decide)
  have hsorted : List.Sorted (· ≤ ·) (a :: l) := hsort ▸ sortSpeeds_sorted p.speeds
  have hshape := makeSteady_eq_rebuilt p o hsort h3 hm hi ha
  set warm := qdGo (clamp (a + ((a :: l).getLast?.getD 0 - a) * (7/20)) a
    ((a :: l).getLast?.getD 0)) a (a :: l) with hwarm
  set cruise := qdGo (clamp (((a :: l).getLast?.getD 0) * (7/10)) a
    ((a :: l).getLast?.getD 0)) a (a :: l) with hcruise
  set stride := qdGo (clamp (((a :: l).getLast?.getD 0) * (9/10)) a
    ((a :: l).getLast?.getD 0)) a (a :: l) with hstride
  have hcs : cruise ≤ stride := cruise_le_stride hsorted
  have hmem : ∀ s ∈ steadyRebuilt p.units warm cruise stride, s.speed ∈ a :: l :=
    steadyRebuilt_mem (qdGo_full_mem _ a l) (qdGo_full_mem _ a l) (qdGo_full_mem _ a l)
  have happ : applySafety p (steadyRebuilt p.units warm cruise stride) =
      .ok (steadyRebuilt p.units warm cruise stride) :=
    applySafety_id hsort hms hrl _ hmem
  have hfin : finalizeWorkout p (some (o.name.getD "Steady"))
      (steadyRebuilt p.units warm cruise stride) = .ok
        (Workout.mk (o.name.getD "Steady") p.units 1800
          (steadyRebuilt p.units warm cruise stride)) := by
    simp only [finalizeWorkout, Option.getD_some]
    rw [happ]
    rw [except_ok_bind, except_pure_eq_ok, Except.ok.injEq]
    simp only [steadyRebuilt, List.foldl_cons, List.foldl_nil]
    norm_num
  refine ⟨Workout.mk (o.name.getD "Steady") p.units 1800
      (steadyRebuilt p.units warm cruise stride),
    by rw [hshape, hfin], rfl,
    steadyRebuilt_stride_secs p.units warm cruise stride, ?_, rfl⟩
  intro s hs hstr c hc hcru
  rw [steadyRebuilt_cruise_speed p.units warm cruise stride c hc hcru,
    steadyRebuilt_stride_speed p.units warm cruise stride s hs hstr]
  exact hcs

/-- Witness for the amended C7 on `speeds = [1, 2, 3]`. -/
theorem makeSteady_strides_spec_witness :
    (3 ≤ (DeviceProfile.mk "W" .mph [1, 2, 3] none none none).speeds.length ∧
        (DeviceProfile.mk "W" .mph [1, 2, 3] none none none).minSegmentSec = none ∧
        (DeviceProfile.mk "W" .mph [1, 2, 3] none none none).rampLimitPerChange = none ∧
        (SteadyOpts.mk none (some 30) (some (7/10)) (some true)).totalMins = some 30 ∧
        (SteadyOpts.mk none (some 30) (some (7/10)) (some true)).intensity = some (7/10) ∧
        (SteadyOpts.mk none (some 30) (some (7/10)) (some true)).addStrides = some true) ∧
      (∃ w, makeSteady (DeviceProfile.mk "W" .mph [1, 2, 3] none none none)
          (SteadyOpts.mk none (some 30) (some (7/10)) (some true)) = .ok w ∧
        (w.segments.filter (fun s => isStrideSeg s)).length = 4 ∧
        (∀ s ∈ w.segments, isStrideSeg s = true → s.secs = 20) ∧
        (∀ s ∈ w.segments, isStrideSeg s = true →
          ∀ c ∈ w.segments, (isCruiseSeg c || isEasyBetweenSeg c) = true → c.speed ≤ s.speed) ∧
        w.totalSecs = 1800) :=
  ⟨⟨by decide, rfl, rfl, rfl, rfl, rfl⟩,
    makeSteady_strides_spec (DeviceProfile.mk "W" .mph [1, 2, 3] none none none)
      (SteadyOpts.mk none (some 30) (some (7/10)) (some true))
      (by decide) rfl rfl rfl rfl rfl⟩

end PaceForge
